import Mathlib

/-!
Verification of the `ply` patch-queue manager (`plypatch/__init__.py`).

This file shallowly embeds the parts of the source the claims are about:

* string helpers mirroring the Python `str.strip`, `str.startswith`,
  substring containment and `os.path.join` / `os.path.dirname`;
* `PatchRepo._recursive_series` / `PatchRepo.series` (series flattening with
  `-i` inclusion directives), `PatchRepo._mutate_series_file` (parse and
  write-back of the root series file), `PatchRepo.add_patches`,
  `PatchRepo.remove_patch`;
* `PatchRepo._changes_by_filename` / `PatchRepo.patch_dependencies`;
* `WorkingRepo._add_patch_annotation`, `WorkingRepo._applied_patches`,
  `WorkingRepo.restore` and `WorkingRepo.resolve` as a state machine over a
  working repository (a list of commit messages, newest first), a patch
  repository (a file store, a set of patch blobs, a dirty flag and a commit
  counter) and a conflict-marker file.

The behaviour of the external git collaborator (`git am` outcomes, the commit
message a clean apply produces, whether staging a blob leaves the patch repo
dirty) is given by an environment `Env`, matching the spec's treatment of the
version-control engine as an external collaborator.

File contents are modelled as lists of lines (without terminators); commit
messages and patch names are strings.  `git` exceptions and Python exceptions
are modelled by `Option PlyError` results; state at the moment an exception
propagates is returned alongside the error, since raising does not roll back
side effects already performed.
-/

/-- Models Python `str.strip()`: drop whitespace from both ends.  Implemented
on the character list so that it evaluates by kernel reduction. -/
def pyStrip (s : String) : String :=
  ⟨((s.data.dropWhile Char.isWhitespace).reverse.dropWhile Char.isWhitespace).reverse⟩

/-- Models Python `s.startswith(p)`. -/
def strStartsWith (s p : String) : Bool :=
  p.data.isPrefixOf s.data

/-- Models Python `"Ply-Patch" in commit_msg` (substring containment), the
test `WorkingRepo._add_patch_annotation` performs before amending. -/
def hasPlyMarker (msg : String) : Bool :=
  decide ("Ply-Patch".data <:+: msg.data)

/-- Models `WorkingRepo._add_patch_annotation` (src lines 23-28): if the HEAD
commit message does not contain the substring `Ply-Patch`, amend it with a
trailing `Ply-Patch: <name>` annotation; otherwise do nothing.  `some m`
means the commit was amended to message `m`; `none` means no amend. -/
def addPatchAnnot (msg name : String) : Option String :=
  if hasPlyMarker msg then none
  else some (msg ++ "\n\nPly-Patch: " ++ name)

/-- The message of the HEAD commit after `_add_patch_annotation` runs. -/
def annotateMsg (msg name : String) : String :=
  match addPatchAnnot msg name with
  | none => msg
  | some m => m

/-- Splits a character list at newline characters (helper for parsing commit
messages line by line). -/
def splitLinesAux : List Char → List Char → List (List Char)
  | [], acc => [acc.reverse]
  | '\n' :: rest, acc => acc.reverse :: splitLinesAux rest []
  | c :: rest, acc => splitLinesAux rest (c :: acc)

/-- Modelled from the spec: `utils.get_patch_annotation` is imported by the
source but its module is not part of the repository snapshot.  Per spec §6,
commit-message annotations are trailing lines of the form
`Ply-Patch: <name>`; parsing tolerates absence and finds at most one
occurrence.  We return the payload of the first line carrying the marker. -/
def getPatchAnnot (msg : String) : Option String :=
  (splitLinesAux msg.data []).findSome? fun line =>
    if "Ply-Patch: ".data.isPrefixOf line then some ⟨line.drop 11⟩ else none

/-- Models `WorkingRepo._applied_patches` (src lines 46-57): walk commit
messages backwards from HEAD, yielding annotations until the first commit
without one.  `commits` lists messages newest first; walking past the end of
history yields empty log output, hence no annotation, so the walk stops. -/
def appliedPatches (commits : List String) : List String :=
  (commits.takeWhile fun m => (getPatchAnnot m).isSome).filterMap getPatchAnnot

/-- Models `os.path.join` for two POSIX path components. -/
def pathJoin (a b : String) : String :=
  if strStartsWith b "/" then b
  else if a = "" then b
  else if a.data.getLast? = some '/' then a ++ b
  else a ++ "/" ++ b

/-- Models `os.path.dirname` for POSIX paths: everything before the last
slash, with trailing slashes stripped unless the result is all slashes. -/
def dirname (p : String) : String :=
  let headRev := p.data.reverse.dropWhile (fun c => c != '/')
  if headRev.all (fun c => c == '/') then ⟨headRev.reverse⟩
  else ⟨(headRev.dropWhile (fun c => c == '/')).reverse⟩

/-- Models the body of `PatchRepo._recursive_series` (src lines 413-429)
applied to the lines of one series file: a stripped line starting with
`-i ` names a child series file (path relative to the patch-repo root
`root`), whose flattened entries are substituted in place, each prefixed by
the child manifest's containing directory; any other line (including a blank
one) is yielded stripped.  `recur` is the recursive reading of a child
series file; a failure anywhere (missing file, recursion limit) fails the
whole read, as the corresponding exception would. -/
def processLines (recur : String → Option (List String)) (root : String) :
    List String → Option (List String)
  | [] => some []
  | line :: rest =>
    let pn := pyStrip line
    let head? : Option (List String) :=
      if strStartsWith pn "-i " then
        let rel := pyStrip ⟨pn.data.drop 3⟩
        (recur (pathJoin root rel)).map fun ns => ns.map fun n => pathJoin (dirname rel) n
      else some [pn]
    match head?, processLines recur root rest with
    | some h, some t => some (h ++ t)
    | _, _ => none

/-- Models `PatchRepo._recursive_series` (src lines 413-429) reading the
series file at `path` inside a file store `fs` mapping paths to file lines.
`fuel` bounds the recursion depth (Python's recursion would not terminate on
cyclic inclusion); exhausted fuel and missing files both yield `none`. -/
def recursiveSeries (fs : String → Option (List String)) (root : String) :
    Nat → String → Option (List String)
  | 0 => fun _ => none
  | fuel + 1 => fun path =>
    match fs path with
    | none => none
    | some lines => processLines (recursiveSeries fs root fuel) root lines

/-- Models the parse phase of `PatchRepo._mutate_series_file` (src lines
348-357): strip each line, skip blank lines. -/
def parseSeriesEntries (lines : List String) : List String :=
  lines.filterMap fun l =>
    let s := pyStrip l
    if s = "" then none else some s

/-- Models Python `list.insert(i, a)`: insert before position `i`, appending
when `i` is past the end. -/
def pyInsert (l : List α) (i : Nat) (a : α) : List α :=
  l.take i ++ a :: l.drop i

/-- Outcome of `git am` on one patch, as distinguished by the source's
exception handling. -/
inductive ApplyOutcome
  | clean
  | didNotApplyCleanly
  | alreadyApplied
deriving DecidableEq

/-- Errors the modelled operations can raise. -/
inductive PlyError
  | uncommittedChanges
  | patchDidNotApplyCleanly (patch : String)
  | patchAlreadyApplied
  | pathNotFound
  | valueError
  | gitError
  | ioError
deriving DecidableEq

/-- The external git collaborator's behaviour, out of the source's control:
the outcome of applying each patch, the commit message a clean apply
creates, whether staging a given blob leaves the patch repo with uncommitted
changes, and whether the `git am --resolved` step of a resolve fails. -/
structure Env where
  amResult : String → ApplyOutcome
  amMsg : String → String
  addDirties : String → Bool
  amResolvedFails : Bool

/-- State of the patch repository: its file store (series manifests), the
set of patch blob paths present, whether it has uncommitted (staged)
changes, and how many commits have been made to it. -/
structure PR where
  fs : String → Option (List String)
  files : List String
  dirty : Bool
  commitCount : Nat

/-- The path of the root series manifest, `os.path.join(self.path, 'series')`
with the patch repo rooted at the empty path. -/
def seriesFilePath : String := pathJoin "" "series"

/-- Overwrites one file of a file store. -/
def fsWrite (fs : String → Option (List String)) (p : String) (v : List String) :
    String → Option (List String) :=
  fun q => if q = p then some v else fs q

/-- Models `PatchRepo.remove_patch` (src lines 392-396): first `git rm` the
blob, then re-parse the root series file and remove the entry, rewriting and
staging the file.  `git rm` fails if the blob is absent; `entries.remove`
raises `ValueError` if the name is not an entry of the root series file, in
which case the write-back never runs but the blob removal already happened. -/
def prRemovePatch (pr : PR) (name : String) : PR × Option PlyError :=
  if name ∈ pr.files then
    let pr1 : PR := { pr with files := pr.files.erase name, dirty := true }
    match pr1.fs seriesFilePath with
    | none => (pr1, some .ioError)
    | some lines =>
      let entries := parseSeriesEntries lines
      if name ∈ entries then
        ({ pr1 with fs := fsWrite pr1.fs seriesFilePath (entries.erase name),
                    dirty := true }, none)
      else (pr1, some .valueError)
  else (pr, some .gitError)

/-- Models the loop body of `PatchRepo.add_patches` (src lines 386-390):
for each name, `git add` its blob (failing if the blob is absent), then
insert it at position `base + idx` of the in-memory entries list unless
already present.  `pos` is `base + idx`; it advances on skipped names too. -/
def addEntriesLoop (env : Env) (files : List String) :
    Nat → List String → Bool → List String → List String × Bool × Option PlyError
  | _, entries, dirty, [] => (entries, dirty, none)
  | pos, entries, dirty, n :: ns =>
    if n ∈ files then
      let dirty' := dirty || env.addDirties n
      let entries' := if n ∈ entries then entries else pyInsert entries pos n
      addEntriesLoop env files (pos + 1) entries' dirty' ns
    else (entries, dirty, some .gitError)

/-- Models `PatchRepo.add_patches` (src lines 369-390): read the root series
file, compute the insertion base once (`entries.index(parent) + 1`, raising
`ValueError` when the parent is absent; `0` when there is no parent), run
the insertion loop, then write back and stage the series file.  On a failure
inside the loop the write-back does not run. -/
def prAddPatches (env : Env) (pr : PR) (names : List String) (parent : Option String) :
    PR × Option PlyError :=
  match pr.fs seriesFilePath with
  | none => (pr, some .ioError)
  | some lines =>
    let entries := parseSeriesEntries lines
    let base? : Option Nat :=
      match parent with
      | some q => if q ∈ entries then some (entries.indexOf q + 1) else none
      | none => some 0
    match base? with
    | none => (pr, some .valueError)
    | some base =>
      match addEntriesLoop env pr.files base entries pr.dirty names with
      | (entries', dirty', none) =>
        ({ pr with fs := fsWrite pr.fs seriesFilePath entries',
                   dirty := dirty' || !(entries' == lines) }, none)
      | (_, dirty', some e) => ({ pr with dirty := dirty' }, some e)

/-- Models `PatchRepo.series` (src lines 431-433): the flattened series read
from the root manifest. -/
def prSeries (fuel : Nat) (pr : PR) : Option (List String) :=
  recursiveSeries pr.fs "" fuel seriesFilePath

/-- State of the working repository: commit messages newest first, the
conflict-marker file (holding the blocked patch's name when present), and
whether the working tree has uncommitted changes. -/
structure WR where
  commits : List String
  conflictFile : Option String
  dirty : Bool

/-- Combined state of one working repo / patch repo pair. -/
structure SyncState where
  wr : WR
  pr : PR

/-- The commit list after `_add_patch_annotation` runs against HEAD. -/
def annotateCommits (commits : List String) (name : String) : List String :=
  match commits with
  | [] => []
  | m :: ms => annotateMsg m name :: ms

/-- Applies `_add_patch_annotation` to the HEAD commit of the working repo. -/
def annotateHead (st : SyncState) (name : String) : SyncState :=
  { st with wr := { st.wr with commits := annotateCommits st.wr.commits name } }

/-- Models `WorkingRepo._commit_to_patch_repo` (src lines 75-78): one commit
in the patch repository, clearing its uncommitted changes. -/
def commitPatchRepo (st : SyncState) : SyncState :=
  { st with pr := { st.pr with dirty := false, commitCount := st.pr.commitCount + 1 } }

/-- Models the per-patch loop of `WorkingRepo.restore` (src lines 198-226):
skip patches already applied; on a clean apply commit the patch and annotate
the new HEAD; on `PatchDidNotApplyCleanly` persist the conflict marker and
re-raise; on `PatchAlreadyApplied` remove the patch from the patch repo
(errors from the removal propagate) and fall through to the annotation step
before continuing with the next patch. -/
def restoreLoop (env : Env) (applied : List String) :
    SyncState → List String → SyncState × Option PlyError
  | st, [] => (st, none)
  | st, p :: rest =>
    if p ∈ applied then restoreLoop env applied st rest
    else
      match env.amResult p with
      | .clean =>
        let st1 : SyncState := { st with wr := { st.wr with commits := env.amMsg p :: st.wr.commits } }
        restoreLoop env applied (annotateHead st1 p) rest
      | .didNotApplyCleanly =>
        ({ st with wr := { st.wr with conflictFile := some p } },
         some (.patchDidNotApplyCleanly p))
      | .alreadyApplied =>
        match prRemovePatch st.pr p with
        | (pr1, some e) => ({ st with pr := pr1 }, some e)
        | (pr1, none) => restoreLoop env applied (annotateHead { st with pr := pr1 } p) rest

/-- Models `WorkingRepo.restore` (src lines 188-232): refuse on a dirty
working tree, read the flattened series, run the loop over it, and after a
conflict-free loop commit once to the patch repository if it has uncommitted
changes. -/
def restore (env : Env) (fuel : Nat) (st : SyncState) : SyncState × Option PlyError :=
  if st.wr.dirty then (st, some .uncommittedChanges)
  else
    match prSeries fuel st.pr with
    | none => (st, some .ioError)
    | some series =>
      match restoreLoop env (appliedPatches st.wr.commits) st series with
      | (st1, some e) => (st1, some e)
      | (st1, none) => if st1.pr.dirty then (commitPatchRepo st1, none) else (st1, none)

/-- Models `WorkingRepo.resolve` (src lines 170-186) up to, but not
including, the final `self.restore(...)` call: `git am --resolved` commits
the user's resolution of the blocked patch, the conflict marker is read and
deleted, the refreshed patch file is regenerated from HEAD against HEAD^
(its series parent taken from the annotation of the commit below HEAD),
stored into the patch repository and staged (no patch-repo commit), and the
working HEAD is re-annotated. -/
def resolveStore (env : Env) (st : SyncState) : SyncState × Option PlyError :=
  match st.wr.conflictFile with
  | none => (st, some .gitError)
  | some p =>
    if env.amResolvedFails then (st, some .gitError)
    else
      let wr1 : WR := { commits := env.amMsg p :: st.wr.commits,
                        conflictFile := none, dirty := false }
      match st.wr.commits with
      | [] => ({ st with wr := wr1 }, some .gitError)
      | prev :: _ =>
        let parent := getPatchAnnot prev
        let pr1 : PR := { st.pr with
          files := if p ∈ st.pr.files then st.pr.files else p :: st.pr.files }
        match prAddPatches env pr1 [p] parent with
        | (pr2, some e) => ({ wr := wr1, pr := pr2 }, some e)
        | (pr2, none) =>
          ({ wr := { wr1 with commits := annotateCommits wr1.commits p }, pr := pr2 }, none)

/-- Models `WorkingRepo.resolve` (src lines 170-186) in full: the store
phase above followed by the resumed `restore`. -/
def resolve (env : Env) (fuel : Nat) (st : SyncState) : SyncState × Option PlyError :=
  match resolveStore env st with
  | (st1, some e) => (st1, some e)
  | (st1, none) => restore env fuel st1

/-- Models the dict-building loop of `PatchRepo._changes_by_filename` (src
lines 455-467): fold over the series in order, appending each patch to the
lists of every file it touches.  The `defaultdict(list)` is represented as a
total function defaulting to `[]`. -/
def cbfAux (touched : String → List String) (acc : String → List String) :
    List String → String → List String
  | [], f => acc f
  | p :: ps, f =>
    cbfAux touched (fun g => if g ∈ touched p then acc g ++ [p] else acc g) ps f

/-- Models `PatchRepo._changes_by_filename`: for each filename, the patches
of the series touching it, in series order. -/
def changesByFilename (touched : String → List String) (series : List String) :
    String → List String :=
  cbfAux touched (fun _ => []) series

/-- The `(dependent, parent)` pairs produced by the `parent`/`dependent`
walk of `PatchRepo.patch_dependencies` over one file's patch list:
consecutive pairs, later patch first. -/
def consecPairs (l : List String) : List (String × String) :=
  (l.drop 1).zip l

/-- Models `graph[(dependent, parent)].add(filename)` on the
`defaultdict(set)` graph. -/
def addEdge (g : String × String → Finset String) (e : String × String) (f : String) :
    String × String → Finset String :=
  fun e' => if e' = e then insert f (g e') else g e'

/-- The key set of the `_changes_by_filename` dict: every file touched by at
least one series patch (`iteritems` iterates each such file exactly once;
the fold below is insertion-order independent). -/
def depKeys (touched : String → List String) (series : List String) : List String :=
  (series.flatMap touched).dedup

/-- Models `PatchRepo.patch_dependencies` (src lines 469-489): for every
file, walk its touching patches in series order and add an edge from each
patch to its predecessor, labelled with the file.  The graph is the total
function from directed edges to their label sets, `∅` meaning no edge. -/
def patchDependencies (touched : String → List String) (series : List String) :
    String × String → Finset String :=
  (depKeys touched series).foldl
    (fun g f =>
      (consecPairs (changesByFilename touched series f)).foldl
        (fun g' e => addEdge g' e f) g)
    (fun _ => ∅)

/-- The commit messages a run of cleanly applied patches pushes onto the
working history (newest first): one annotated commit per not-yet-applied
patch of the run, in reverse application order. -/
def cleanCommits (env : Env) (applied : List String) (pre : List String) : List String :=
  ((pre.filter fun q => decide (q ∉ applied)).map fun q => annotateMsg (env.amMsg q) q).reverse

/-- Relates a commit history to an earlier one from which it differs at most
by `_add_patch_annotation` having amended the head commit (the fall-through
after a `PatchAlreadyApplied` removal): either the history is unchanged, or
only its head message was annotated.  No commit is ever removed. -/
def headAdjusted (tail orig : List String) : Prop :=
  tail = orig ∨ ∃ m ms name, orig = m :: ms ∧ tail = annotateMsg m name :: ms

/-! ### Concrete fixtures used by witnesses and counterexamples -/

/-- A two-level manifest store: the root series includes `sub/series`. -/
def fsNested : String → Option (List String) := fun p =>
  if p = "series" then some ["a.patch", "-i sub/series", "b.patch"]
  else if p = "sub/series" then some ["x.patch"] else none

/-- A flat manifest containing a blank line. -/
def fsBlank : String → Option (List String) := fun p =>
  if p = "series" then some ["a.patch", "", "b.patch"] else none

/-- Environment for the PatchRepo-level witnesses: applies cleanly, staging
never dirties. -/
def envAdd : Env :=
  ⟨fun _ => .clean, fun s => s, fun _ => false, false⟩

/-- Patch repo for the C6 scenario: root series `p`, `c`; blobs for `p`,
`c` and `n` on disk. -/
def prAdd : PR :=
  ⟨fun q => if q = "series" then some ["p", "c"] else none, ["p", "c", "n"], false, 0⟩

/-- Patch repo whose root series only includes a nested manifest; the patch
`sub/x.patch` is in the flattened series but not an entry of the root
series file. -/
def prN : PR :=
  ⟨fun q => if q = "series" then some ["-i sub/series"]
    else if q = "sub/series" then some ["x.patch"] else none,
   ["sub/x.patch"], false, 0⟩

/-- Patch repo with a flat two-entry series. -/
def prF : PR :=
  ⟨fun q => if q = "series" then some ["a.patch", "b.patch"] else none,
   ["a.patch", "b.patch"], false, 0⟩

/-- Changed-files map for the C8 witness: `p1` and `p2` share `f`; `p3`
touches only `h`. -/
def tchW : String → List String :=
  fun p => if p = "p1" then ["f", "g"] else if p = "p2" then ["f"] else ["h"]

/-- Environment for the C1 witness: `p2` conflicts, everything else applies
cleanly. -/
def envC1 : Env :=
  ⟨fun s => if s = "p2" then .didNotApplyCleanly else .clean,
   fun s => "am " ++ s, fun _ => false, false⟩

/-- Initial state for the C1 witness: clean working repo on one unannotated
base commit, three-patch flat series. -/
def stC1 : SyncState :=
  ⟨⟨["base"], none, false⟩,
   ⟨fun p => if p = "series" then some ["p1", "p2", "p3"] else none,
    ["p1", "p2", "p3"], false, 0⟩⟩

/-- Environment for the C1 witness: `p0` is already upstream, `p1` applies
cleanly, `p2` conflicts. -/
def envC1b : Env :=
  ⟨fun s => if s = "p0" then .alreadyApplied
    else if s = "p2" then .didNotApplyCleanly else .clean,
   fun s => "am " ++ s, fun _ => false, false⟩

/-- Initial state for the C1 witness: clean working repo on one unannotated
base commit, three-patch flat series including an already-upstream patch. -/
def stC1b : SyncState :=
  ⟨⟨["base"], none, false⟩,
   ⟨fun q => if q = "series" then some ["p0", "p1", "p2"] else none,
    ["p0", "p1", "p2"], false, 0⟩⟩

/-- Environment for the C2 witness: every patch applies cleanly and staging
a blob leaves the patch repo dirty. -/
def envC2 : Env :=
  ⟨fun _ => .clean, fun s => "am " ++ s, fun _ => true, false⟩

/-- Initial state for the C2 witness: a restore blocked on `p1` with `p2`
still to apply. -/
def stC2 : SyncState :=
  ⟨⟨["base"], some "p1", false⟩,
   ⟨fun p => if p = "series" then some ["p1", "p2"] else none,
    ["p1", "p2"], false, 0⟩⟩

/-- Environment for the C3 scenario: the only patch is already upstream. -/
def envAA : Env :=
  ⟨fun _ => .alreadyApplied, fun s => "am " ++ s, fun _ => false, false⟩

/-- Initial state for the C3 scenario: an unannotated upstream HEAD and a
single-patch series whose patch is already contained upstream. -/
def stAA : SyncState :=
  ⟨⟨["initial import"], none, false⟩,
   ⟨fun p => if p = "series" then some ["p.patch"] else none,
    ["p.patch"], false, 0⟩⟩

/-! ### Helper lemmas on series flattening -/

theorem processLines_flat_append (r : String → Option (List String)) (root : String)
    (xs ys : List String)
    (hflat : ∀ l ∈ xs, strStartsWith (pyStrip l) "-i " = false) :
    processLines r root (xs ++ ys) =
      (processLines r root ys).map (fun t => xs.map pyStrip ++ t) := by
  induction xs with
  | nil =>
    cases h : processLines r root ys <;> simp [h]
  | cons l xs ih =>
    have hl : strStartsWith (pyStrip l) "-i " = false := hflat l (by simp)
    have hxs : ∀ l' ∈ xs, strStartsWith (pyStrip l') "-i " = false := by
      intro l' hl'
      exact hflat l' (by simp [hl'])
    show processLines r root (l :: (xs ++ ys)) = _
    rw [processLines, hl]
    simp only [Bool.false_eq_true, if_false]
    rw [ih hxs]
    cases h : processLines r root ys <;> simp [h]

theorem recursiveSeries_flat (fs : String → Option (List String)) (root : String)
    (fuel : Nat) (path : String) (lines : List String)
    (hfs : fs path = some lines)
    (hflat : ∀ l ∈ lines, strStartsWith (pyStrip l) "-i " = false) :
    recursiveSeries fs root (fuel + 1) path = some (lines.map pyStrip) := by
  have h := processLines_flat_append (recursiveSeries fs root fuel) root lines [] hflat
  simp only [List.append_nil] at h
  simp [recursiveSeries, hfs, h, processLines]

/-! ### Claim theorems -/

/-- C4: for every series manifest consisting of flat entries around one
inclusion directive `-i rel`, `series` returns the parent entries with the
nested manifest's flattened entries substituted in place of the directive,
each prefixed by the directory containing the nested manifest, preserving
relative order within and across the substitution (depth-first: the child's
entries are themselves read by the same recursive procedure). -/
theorem ply_c4_series_inclusion (fs : String → Option (List String)) (root : String)
    (fuel : Nat) (parentPath : String) (before after : List String)
    (dline rel : String) (childNames : List String)
    (hfs : fs parentPath = some (before ++ dline :: after))
    (hdir : strStartsWith (pyStrip dline) "-i " = true)
    (hrel : pyStrip ⟨(pyStrip dline).data.drop 3⟩ = rel)
    (hbefore : ∀ l ∈ before, strStartsWith (pyStrip l) "-i " = false)
    (hafter : ∀ l ∈ after, strStartsWith (pyStrip l) "-i " = false)
    (hchild : recursiveSeries fs root fuel (pathJoin root rel) = some childNames) :
    recursiveSeries fs root (fuel + 1) parentPath =
      some (before.map pyStrip ++
        childNames.map (fun n => pathJoin (dirname rel) n) ++ after.map pyStrip) := by
  have hafter' := processLines_flat_append (recursiveSeries fs root fuel) root after [] hafter
  simp only [List.append_nil] at hafter'
  have htail : processLines (recursiveSeries fs root fuel) root (dline :: after) =
      some (childNames.map (fun n => pathJoin (dirname rel) n) ++ after.map pyStrip) := by
    rw [processLines, hdir]
    simp only [if_true, hrel, hchild, hafter', processLines]
    simp
  have hmain := processLines_flat_append (recursiveSeries fs root fuel) root before
    (dline :: after) hbefore
  rw [htail] at hmain
  simp only [recursiveSeries, hfs, hmain]
  simp [List.append_assoc]

/-- Witness for C4 on a concrete two-level manifest store. -/
theorem ply_c4_series_inclusion_witness :
    fsNested "series" = some (["a.patch"] ++ "-i sub/series" :: ["b.patch"]) ∧
    strStartsWith (pyStrip "-i sub/series") "-i " = true ∧
    recursiveSeries fsNested "" 1 (pathJoin "" "sub/series") = some ["x.patch"] ∧
    recursiveSeries fsNested "" 2 "series" = some ["a.patch", "sub/x.patch", "b.patch"] := by
  refine ⟨by decide, by decide, by decide, ?_⟩
  have h := ply_c4_series_inclusion fsNested "" 1 "series" ["a.patch"] ["b.patch"]
    "-i sub/series" "sub/series" ["x.patch"] (by decide) (by decide) (by decide)
    (by decide) (by decide) (by decide)
  exact h.trans (by decide)

/-- C5 counterexample: a flat manifest with a blank line.  The claim says the
blank line is ignored (producing no entry), i.e. `series` would return
`["a.patch", "b.patch"]`; the code yields an empty-string entry for it. -/
theorem ply_c5_counterexample :
    recursiveSeries fsBlank "" 1 "series" = some ["a.patch", "", "b.patch"] ∧
    recursiveSeries fsBlank "" 1 "series" ≠ some ["a.patch", "b.patch"] := by
  constructor
  · decide
  · decide

/-- C5 as amended: for every series manifest containing only flat entries
(no inclusion directives), `series` returns the stripped lines in file
order; blank lines are not skipped — each one yields an empty-string entry
(only `_mutate_series_file`, not `_recursive_series`, skips blanks). -/
theorem ply_c5_flat_series (fs : String → Option (List String)) (root : String)
    (fuel : Nat) (path : String) (lines : List String)
    (hfs : fs path = some lines)
    (hflat : ∀ l ∈ lines, strStartsWith (pyStrip l) "-i " = false) :
    recursiveSeries fs root (fuel + 1) path = some (lines.map pyStrip) :=
  recursiveSeries_flat fs root fuel path lines hfs hflat

/-- Witness for the amended C5 on a concrete flat manifest with a blank. -/
theorem ply_c5_flat_series_witness :
    fsBlank "series" = some ["a.patch", "", "b.patch"] ∧
    recursiveSeries fsBlank "" 1 "series" = some ["a.patch", "", "b.patch"] := by
  refine ⟨by decide, ?_⟩
  have h := ply_c5_flat_series fsBlank "" 0 "series" ["a.patch", "", "b.patch"]
    (by decide) (by decide)
  exact h.trans (by decide)

/-! ### Helper lemmas on the restore loop -/

theorem annotateCommits_length (commits : List String) (name : String) :
    (annotateCommits commits name).length = commits.length := by
  cases commits <;> simp [annotateCommits]

theorem prRemovePatch_commitCount (pr : PR) (name : String) :
    (prRemovePatch pr name).1.commitCount = pr.commitCount := by
  rw [prRemovePatch]
  by_cases h : name ∈ pr.files
  · rw [if_pos h]
    dsimp only
    cases hfs : pr.fs seriesFilePath with
    | none => rfl
    | some lines =>
      by_cases hm : name ∈ parseSeriesEntries lines
      · simp only [hm, if_true]
      · simp only [hm, Bool.false_eq_true, if_false]
  · rw [if_neg h]

theorem annotateHead_pr (st : SyncState) (name : String) :
    (annotateHead st name).pr = st.pr := rfl

theorem restoreLoop_commitCount (env : Env) (applied : List String) :
    ∀ (ps : List String) (st : SyncState),
      (restoreLoop env applied st ps).1.pr.commitCount = st.pr.commitCount := by
  intro ps
  induction ps with
  | nil => intro st; rfl
  | cons p rest ih =>
    intro st
    rw [restoreLoop]
    by_cases hp : p ∈ applied
    · rw [if_pos hp]; exact ih st
    · rw [if_neg hp]
      cases ham : env.amResult p with
      | clean => exact ih _
      | didNotApplyCleanly => rfl
      | alreadyApplied =>
        generalize hrm : prRemovePatch st.pr p = rr
        obtain ⟨pr1, e?⟩ := rr
        have hc : pr1.commitCount = st.pr.commitCount := by
          have h := prRemovePatch_commitCount st.pr p
          rw [hrm] at h
          exact h
        cases e? with
        | none => exact (ih (annotateHead { st with pr := pr1 } p)).trans hc
        | some e => exact hc

theorem restore_commit_char (env : Env) (fuel : Nat) (s : SyncState) :
    (restore env fuel s).1.pr.commitCount ≤ s.pr.commitCount + 1 ∧
    ((restore env fuel s).1.pr.commitCount = s.pr.commitCount + 1 →
      (restore env fuel s).2 = none ∧
      ∃ sMid, sMid.pr.dirty = true ∧ restore env fuel s = (commitPatchRepo sMid, none)) := by
  unfold restore
  by_cases hd : s.wr.dirty
  · rw [if_pos hd]
    dsimp only
    exact ⟨Nat.le_succ _, fun habs => absurd habs (by omega)⟩
  · rw [if_neg hd]
    generalize prSeries fuel s.pr = ser
    cases ser with
    | none =>
      dsimp only
      exact ⟨Nat.le_succ _, fun habs => absurd habs (by omega)⟩
    | some series =>
      dsimp only
      generalize hL : restoreLoop env (appliedPatches s.wr.commits) s series = r
      have hc0 := restoreLoop_commitCount env (appliedPatches s.wr.commits) series s
      rw [hL] at hc0
      obtain ⟨s1, e?⟩ := r
      have hc : s1.pr.commitCount = s.pr.commitCount := hc0
      cases e? with
      | some e =>
        dsimp only
        exact ⟨by omega, fun habs => absurd habs (by omega)⟩
      | none =>
        dsimp only
        by_cases hd1 : s1.pr.dirty
        · rw [if_pos hd1]
          refine ⟨?_, fun _ => ⟨rfl, ⟨s1, hd1, rfl⟩⟩⟩
          show s1.pr.commitCount + 1 ≤ s.pr.commitCount + 1
          omega
        · rw [if_neg hd1]
          exact ⟨by omega, fun habs => absurd habs (by omega)⟩

theorem prAddPatches_commitCount (env : Env) (pr : PR) (names : List String)
    (parent : Option String) :
    (prAddPatches env pr names parent).1.commitCount = pr.commitCount := by
  rw [prAddPatches]
  cases hfs : pr.fs seriesFilePath with
  | none => rfl
  | some lines =>
    dsimp only
    cases parent with
    | none =>
      dsimp only
      generalize addEntriesLoop env pr.files 0 (parseSeriesEntries lines) pr.dirty names = t
      obtain ⟨entries', dirty', err?⟩ := t
      cases err? <;> rfl
    | some q =>
      dsimp only
      by_cases hq : q ∈ parseSeriesEntries lines
      · rw [if_pos hq]
        dsimp only
        generalize addEntriesLoop env pr.files ((parseSeriesEntries lines).indexOf q + 1)
          (parseSeriesEntries lines) pr.dirty names = t
        obtain ⟨entries', dirty', err?⟩ := t
        cases err? <;> rfl
      · rw [if_neg hq]

theorem resolveStore_commitCount (env : Env) (st : SyncState) :
    (resolveStore env st).1.pr.commitCount = st.pr.commitCount := by
  rw [resolveStore]
  split
  · rfl
  · by_cases hr : env.amResolvedFails
    · rw [if_pos hr]
    · rw [if_neg hr]
      split
      · rfl
      · split <;>
          (dsimp only
           split <;>
             (rename_i heq
              have h := congrArg (fun z : PR × Option PlyError => z.1.commitCount) heq
              dsimp only at h
              rw [prAddPatches_commitCount] at h
              exact h.symm))

/-- C2: a `resolve` invocation that resumes a restore makes at most one
commit to the patch repository: the store phase (refreshed patch file and
series mutation) only stages and never commits, the total commit count grows
by at most one, and it grows by exactly one only when the whole invocation
succeeds and the final step is the single end-of-restore commit of a
patch repository that had uncommitted changes. -/
theorem ply_c2_resolve_single_commit (env : Env) (fuel : Nat) (st : SyncState) (p : String)
    (_hconf : st.wr.conflictFile = some p)
    (_hres : env.amResolvedFails = false)
    (_hout : ∀ q, env.amResult q ≠ ApplyOutcome.didNotApplyCleanly) :
    (resolveStore env st).1.pr.commitCount = st.pr.commitCount ∧
    (resolve env fuel st).1.pr.commitCount ≤ st.pr.commitCount + 1 ∧
    ((resolve env fuel st).1.pr.commitCount = st.pr.commitCount + 1 →
      (resolve env fuel st).2 = none ∧
      ∃ sMid, sMid.pr.dirty = true ∧ resolve env fuel st = (commitPatchRepo sMid, none)) := by
  refine ⟨resolveStore_commitCount env st, ?_⟩
  rw [resolve]
  have hS := resolveStore_commitCount env st
  generalize hA : resolveStore env st = t at hS
  obtain ⟨st1, e?⟩ := t
  have hS' : st1.pr.commitCount = st.pr.commitCount := hS
  cases e? with
  | some e =>
    dsimp only
    exact ⟨by omega, fun habs => absurd habs (by omega)⟩
  | none =>
    dsimp only
    obtain ⟨h1, h2⟩ := restore_commit_char env fuel st1
    refine ⟨by omega, fun habs => ?_⟩
    have habs' : (restore env fuel st1).1.pr.commitCount = st1.pr.commitCount + 1 := by omega
    obtain ⟨he, sMid, hdirt, heq2⟩ := h2 habs'
    exact ⟨he, sMid, hdirt, heq2⟩

/-- Witness for C2: resuming a blocked restore on a concrete state where the
refreshed patch is staged dirtily; exactly one patch-repo commit results. -/
theorem ply_c2_resolve_single_commit_witness :
    stC2.wr.conflictFile = some "p1" ∧
    envC2.amResolvedFails = false ∧
    (resolveStore envC2 stC2).1.pr.commitCount = stC2.pr.commitCount ∧
    (resolve envC2 1 stC2).1.pr.commitCount ≤ stC2.pr.commitCount + 1 ∧
    (resolve envC2 1 stC2).2 = none ∧
    (resolve envC2 1 stC2).1.pr.commitCount = 1 := by
  have h := ply_c2_resolve_single_commit envC2 1 stC2 "p1" (by decide) (by decide)
    (fun q hq => ApplyOutcome.noConfusion hq)
  exact ⟨by decide, by decide, h.1, h.2.1, ((h.2.2 (by decide)).1), by decide⟩

theorem restoreLoop_clean_run (env : Env) (applied : List String) (p : String)
    (hp : p ∉ applied) (hcf : env.amResult p = ApplyOutcome.didNotApplyCleanly) :
    ∀ (pre : List String) (post : List String) (st : SyncState),
      (∀ q ∈ pre, q ∉ applied → env.amResult q = ApplyOutcome.clean) →
      restoreLoop env applied st (pre ++ p :: post) =
        ({ wr := { commits := cleanCommits env applied pre ++ st.wr.commits,
                   conflictFile := some p,
                   dirty := st.wr.dirty },
           pr := st.pr },
         some (PlyError.patchDidNotApplyCleanly p)) := by
  intro pre
  induction pre with
  | nil =>
    intro post st hpre
    show restoreLoop env applied st (p :: post) = _
    rw [restoreLoop, if_neg hp, hcf]
    simp [cleanCommits]
  | cons q pre ih =>
    intro post st hpre
    show restoreLoop env applied st (q :: (pre ++ p :: post)) = _
    rw [restoreLoop]
    by_cases hq : q ∈ applied
    · rw [if_pos hq, ih post st (fun r hr hnr => hpre r (List.mem_cons_of_mem _ hr) hnr)]
      simp [cleanCommits, List.filter_cons, hq]
    · rw [if_neg hq, hpre q (List.mem_cons_self q _) hq]
      dsimp only
      rw [ih post _ (fun r hr hnr => hpre r (List.mem_cons_of_mem _ hr) hnr)]
      simp [cleanCommits, annotateHead, annotateCommits, List.filter_cons, hq,
        List.append_assoc]

theorem prRemovePatch_not_alreadyApplied (pr : PR) (name : String) :
    (prRemovePatch pr name).2 ≠ some PlyError.patchAlreadyApplied := by
  rw [prRemovePatch]
  by_cases h : name ∈ pr.files
  · rw [if_pos h]
    dsimp only
    cases pr.fs seriesFilePath with
    | none => simp
    | some lines =>
      by_cases hm : name ∈ parseSeriesEntries lines
      · simp [hm]
      · simp [hm]
  · rw [if_neg h]
    simp

theorem restoreLoop_not_alreadyApplied (env : Env) (applied : List String) :
    ∀ (ps : List String) (st : SyncState),
      (restoreLoop env applied st ps).2 ≠ some PlyError.patchAlreadyApplied := by
  intro ps
  induction ps with
  | nil => intro st; simp [restoreLoop]
  | cons p rest ih =>
    intro st
    rw [restoreLoop]
    by_cases hq : p ∈ applied
    · rw [if_pos hq]; exact ih st
    · rw [if_neg hq]
      cases env.amResult p with
      | clean => exact ih _
      | didNotApplyCleanly => simp
      | alreadyApplied =>
        generalize hrm : prRemovePatch st.pr p = rr
        obtain ⟨pr1, e?⟩ := rr
        cases e? with
        | none => exact ih _
        | some e =>
          dsimp only
          have h := prRemovePatch_not_alreadyApplied st.pr p
          rw [hrm] at h
          exact h

theorem restore_not_alreadyApplied (env : Env) (fuel : Nat) (s : SyncState) :
    (restore env fuel s).2 ≠ some PlyError.patchAlreadyApplied := by
  rw [restore]
  by_cases hd : s.wr.dirty
  · rw [if_pos hd]; simp
  · rw [if_neg hd]
    generalize prSeries fuel s.pr = ser
    cases ser with
    | none => simp
    | some series =>
      dsimp only
      generalize hL : restoreLoop env (appliedPatches s.wr.commits) s series = r
      have h := restoreLoop_not_alreadyApplied env (appliedPatches s.wr.commits) series s
      rw [hL] at h
      obtain ⟨s1, e?⟩ := r
      cases e? with
      | some e => exact h
      | none =>
        dsimp only
        by_cases hd1 : s1.pr.dirty
        · rw [if_pos hd1]; simp
        · rw [if_neg hd1]; simp

/-- C3 as amended: when applying a patch raises `PatchAlreadyApplied` and
the patch is an entry of the root series file, the patch is removed from the
patch repository (blob and series entry), the loop continues with the next
patch, no new commit is added to the working repository for that patch, and
the error never surfaces from `restore`; however, the HEAD commit is amended
to carry the removed patch's annotation when its message does not already
contain the marker (the fall-through to `_add_patch_annotation` after the
handler), so the working history is not always left untouched. -/
theorem ply_c3_already_applied (env : Env) (applied : List String) (st : SyncState)
    (p : String) (rest lines : List String)
    (hp : p ∉ applied)
    (ham : env.amResult p = ApplyOutcome.alreadyApplied)
    (hfile : p ∈ st.pr.files)
    (hfs : st.pr.fs seriesFilePath = some lines)
    (hmem : p ∈ parseSeriesEntries lines) :
    (∃ st' : SyncState,
      restoreLoop env applied st (p :: rest) = restoreLoop env applied st' rest ∧
      st'.pr.files = st.pr.files.erase p ∧
      st'.pr.fs seriesFilePath = some ((parseSeriesEntries lines).erase p) ∧
      st'.pr.commitCount = st.pr.commitCount ∧
      st'.wr.commits = annotateCommits st.wr.commits p ∧
      st'.wr.commits.length = st.wr.commits.length) ∧
    ∀ (env' : Env) (fuel : Nat) (s : SyncState),
      (restore env' fuel s).2 ≠ some PlyError.patchAlreadyApplied := by
  constructor
  · have hrm : prRemovePatch st.pr p =
        ({ st.pr with fs := fsWrite st.pr.fs seriesFilePath ((parseSeriesEntries lines).erase p),
                      files := st.pr.files.erase p,
                      dirty := true }, none) := by
      rw [prRemovePatch, if_pos hfile]
      dsimp only
      rw [hfs]
      dsimp only
      rw [if_pos hmem]
    refine ⟨annotateHead { st with pr :=
        { st.pr with fs := fsWrite st.pr.fs seriesFilePath ((parseSeriesEntries lines).erase p),
                     files := st.pr.files.erase p,
                     dirty := true } } p, ?_, rfl, ?_, rfl, rfl, ?_⟩
    · rw [restoreLoop, if_neg hp, ham]
      dsimp only
      rw [hrm]
    · show fsWrite st.pr.fs seriesFilePath ((parseSeriesEntries lines).erase p) seriesFilePath = _
      simp [fsWrite]
    · exact annotateCommits_length st.wr.commits p
  · intro env' fuel s
    exact restore_not_alreadyApplied env' fuel s

/-- Witness for the amended C3 on a concrete state. -/
theorem ply_c3_already_applied_witness :
    ("p.patch" ∉ ([] : List String)) ∧
    envAA.amResult "p.patch" = ApplyOutcome.alreadyApplied ∧
    ("p.patch" ∈ stAA.pr.files) ∧
    stAA.pr.fs seriesFilePath = some ["p.patch"] ∧
    ("p.patch" ∈ parseSeriesEntries ["p.patch"]) ∧
    (∃ st' : SyncState,
      restoreLoop envAA [] stAA ("p.patch" :: []) = restoreLoop envAA [] st' [] ∧
      st'.pr.files = stAA.pr.files.erase "p.patch" ∧
      st'.pr.fs seriesFilePath = some ((parseSeriesEntries ["p.patch"]).erase "p.patch") ∧
      st'.pr.commitCount = stAA.pr.commitCount ∧
      st'.wr.commits = annotateCommits stAA.wr.commits "p.patch" ∧
      st'.wr.commits.length = stAA.wr.commits.length) := by
  refine ⟨by decide, by decide, by decide, by decide, by decide, ?_⟩
  exact (ply_c3_already_applied envAA [] stAA "p.patch" [] ["p.patch"]
    (by decide) (by decide) (by decide) (by decide) (by decide)).1

/-- C3 counterexample: a restore whose only patch is already applied removes
the patch from the patch repository and surfaces no error, but it does issue
a working-repository commit for that patch: `_add_patch_annotation` runs
after the handler and amends the unannotated HEAD, rewriting the upstream
base commit to carry `Ply-Patch: p.patch` — the claim's "no commit is made
in the working repository for that patch" fails. -/
theorem ply_c3_counterexample :
    (restore envAA 2 stAA).2 = none ∧
    (restore envAA 2 stAA).1.pr.files = [] ∧
    (restore envAA 2 stAA).1.wr.commits = ["initial import\n\nPly-Patch: p.patch"] ∧
    (restore envAA 2 stAA).1.wr.commits ≠ stAA.wr.commits := by
  refine ⟨by decide, by decide, by decide, by decide⟩

/-! ### Helper lemmas on series-file mutation -/

theorem parseSeriesEntries_id (lines : List String)
    (hwf : ∀ l ∈ lines, pyStrip l = l ∧ l ≠ "") :
    parseSeriesEntries lines = lines := by
  induction lines with
  | nil => rfl
  | cons l ls ih =>
    have hl := hwf l (by simp)
    have hls : ∀ l' ∈ ls, pyStrip l' = l' ∧ l' ≠ "" := fun l' h' => hwf l' (by simp [h'])
    rw [parseSeriesEntries] at ih ⊢
    simp only [List.filterMap_cons]
    rw [hl.1, if_neg hl.2, ih hls]

theorem mapStrip_id (xs : List String) (hwf : ∀ l ∈ xs, pyStrip l = l) :
    xs.map pyStrip = xs := by
  induction xs with
  | nil => rfl
  | cons l ls ih =>
    rw [List.map_cons, hwf l (by simp), ih (fun l' h' => hwf l' (by simp [h']))]

theorem pyInsert_take (entries : List α) (pos : Nat) (n : α) :
    (pyInsert entries pos n).take (pos + 1) = entries.take pos ++ [n] := by
  induction entries generalizing pos with
  | nil => simp [pyInsert]
  | cons e es ih =>
    cases pos with
    | zero => simp [pyInsert]
    | succ k =>
      show ((e :: es).take (k + 1) ++ n :: (e :: es).drop (k + 1)).take (k + 2) = _
      simp only [List.take_succ_cons, List.drop_succ_cons, List.cons_append]
      congr 1
      exact ih k

theorem pyInsert_drop (entries : List α) (pos : Nat) (n : α) :
    (pyInsert entries pos n).drop (pos + 1) = entries.drop pos := by
  induction entries generalizing pos with
  | nil => simp [pyInsert]
  | cons e es ih =>
    cases pos with
    | zero => simp [pyInsert]
    | succ k =>
      show ((e :: es).take (k + 1) ++ n :: (e :: es).drop (k + 1)).drop (k + 2) = _
      simp only [List.take_succ_cons, List.drop_succ_cons, List.cons_append]
      exact ih k

theorem pyInsert_mem (entries : List α) (pos : Nat) (n : α) (a : α) :
    a ∈ pyInsert entries pos n ↔ a ∈ entries ∨ a = n := by
  rw [pyInsert]
  simp only [List.mem_append, List.mem_cons]
  constructor
  · rintro (h | h | h)
    · exact Or.inl (List.mem_of_mem_take h)
    · exact Or.inr h
    · exact Or.inl (List.mem_of_mem_drop h)
  · rintro (h | h)
    · have h2 : a ∈ entries.take pos ++ entries.drop pos := by
        rw [List.take_append_drop]
        exact h
      rcases List.mem_append.1 h2 with h3 | h3
      · exact Or.inl h3
      · exact Or.inr (Or.inr h3)
    · exact Or.inr (Or.inl h)

theorem addEntriesLoop_fresh (env : Env) (files : List String) :
    ∀ (names : List String) (pos : Nat) (entries : List String) (dirty : Bool),
      (∀ n ∈ names, n ∈ files) →
      (∀ n ∈ names, n ∉ entries) →
      names.Nodup →
      ∃ d', addEntriesLoop env files pos entries dirty names =
        (entries.take pos ++ names ++ entries.drop pos, d', none) := by
  intro names
  induction names with
  | nil =>
    intro pos entries dirty _ _ _
    exact ⟨dirty, by simp [addEntriesLoop]⟩
  | cons n ns ih =>
    intro pos entries dirty hfiles hfresh hnodup
    rw [addEntriesLoop, if_pos (hfiles n (by simp))]
    have hne : n ∉ entries := hfresh n (by simp)
    rw [if_neg hne]
    have hfresh' : ∀ m ∈ ns, m ∉ pyInsert entries pos n := by
      intro m hm hcon
      rcases (pyInsert_mem entries pos n m).1 hcon with h1 | h1
      · exact hfresh m (by simp [hm]) h1
      · exact (List.nodup_cons.1 hnodup).1 (h1 ▸ hm)
    obtain ⟨d', hd'⟩ := ih (pos + 1) (pyInsert entries pos n) (dirty || env.addDirties n)
      (fun m hm => hfiles m (by simp [hm])) hfresh' (List.nodup_cons.1 hnodup).2
    refine ⟨d', ?_⟩
    rw [hd', pyInsert_take, pyInsert_drop]
    simp [List.append_assoc]

theorem addEntriesLoop_all_present (env : Env) (files : List String) :
    ∀ (names : List String) (pos : Nat) (entries : List String) (dirty : Bool),
      (∀ n ∈ names, n ∈ files) →
      (∀ n ∈ names, n ∈ entries) →
      ∃ d', addEntriesLoop env files pos entries dirty names = (entries, d', none) := by
  intro names
  induction names with
  | nil =>
    intro pos entries dirty _ _
    exact ⟨dirty, by simp [addEntriesLoop]⟩
  | cons n ns ih =>
    intro pos entries dirty hfiles hmem
    rw [addEntriesLoop, if_pos (hfiles n (by simp)), if_pos (hmem n (by simp))]
    exact ih (pos + 1) entries (dirty || env.addDirties n)
      (fun m hm => hfiles m (by simp [hm])) (fun m hm => hmem m (by simp [hm]))

/-- C6 counterexample: root series `p`, `c`; `add_patches(["c", "n"], "p")`
skips `c` (already present) but still advances the insertion index, so `n`
lands after `c` instead of immediately after the parent `p`.  The claim's
reading (names not already present inserted contiguously immediately after
`p`, in order) would give `p, n, c`; the code gives `p, c, n`. -/
theorem ply_c6_counterexample :
    (prAddPatches envAdd prAdd ["c", "n"] (some "p")).2 = none ∧
    (prAddPatches envAdd prAdd ["c", "n"] (some "p")).1.fs seriesFilePath =
      some ["p", "c", "n"] ∧
    (prAddPatches envAdd prAdd ["c", "n"] (some "p")).1.fs seriesFilePath ≠
      some ["p", "n", "c"] := by
  refine ⟨by decide, by decide, by decide⟩

/-- C6 as amended: `add_patches(names, parent)` computes the insertion base
once (just after `parent`'s position in the root series file) and inserts
each name at `base + idx`, where `idx` counts every given name including the
skipped ones; hence when no given name is already present, the names land
contiguously immediately after `parent`, in the order given (a name already
present elsewhere makes later insertions land beyond that point).  Calling
it twice with the same arguments yields the same series file as calling it
once: all names being present, the second call inserts nothing. -/
theorem ply_c6_add_patches (env : Env) (pr : PR) (names : List String) (parent : String)
    (lines : List String)
    (hfs : pr.fs seriesFilePath = some lines)
    (hwf : ∀ l ∈ lines, pyStrip l = l ∧ l ≠ "")
    (hparent : parent ∈ lines)
    (hfilesOk : ∀ n ∈ names, n ∈ pr.files)
    (hfresh : ∀ n ∈ names, n ∉ lines)
    (hnodup : names.Nodup)
    (hnwf : ∀ n ∈ names, pyStrip n = n ∧ n ≠ "") :
    (prAddPatches env pr names (some parent)).2 = none ∧
    (prAddPatches env pr names (some parent)).1.fs seriesFilePath =
      some (lines.take (lines.indexOf parent + 1) ++ names ++
        lines.drop (lines.indexOf parent + 1)) ∧
    (prAddPatches env (prAddPatches env pr names (some parent)).1 names (some parent)).2 =
      none ∧
    (prAddPatches env (prAddPatches env pr names (some parent)).1 names
        (some parent)).1.fs seriesFilePath =
      (prAddPatches env pr names (some parent)).1.fs seriesFilePath := by
  have hparse := parseSeriesEntries_id lines hwf
  set E := lines.take (lines.indexOf parent + 1) ++ names ++
    lines.drop (lines.indexOf parent + 1) with hE
  obtain ⟨d1, hd1⟩ := addEntriesLoop_fresh env pr.files names (lines.indexOf parent + 1)
    lines pr.dirty hfilesOk hfresh hnodup
  rw [← hE] at hd1
  have hfirst : prAddPatches env pr names (some parent) =
      ({ pr with fs := fsWrite pr.fs seriesFilePath E, dirty := d1 || !(E == lines) }, none) := by
    rw [prAddPatches, hfs]
    dsimp only
    rw [hparse, if_pos hparent]
    dsimp only
    rw [hd1]
  have hfsE : (prAddPatches env pr names (some parent)).1.fs seriesFilePath = some E := by
    rw [hfirst]
    show fsWrite pr.fs seriesFilePath E seriesFilePath = some E
    simp [fsWrite]
  have hEwf : ∀ l ∈ E, pyStrip l = l ∧ l ≠ "" := by
    intro l hl
    rw [hE] at hl
    rcases List.mem_append.1 hl with h1 | h1
    · rcases List.mem_append.1 h1 with h2 | h2
      · exact hwf l (List.mem_of_mem_take h2)
      · exact hnwf l h2
    · exact hwf l (List.mem_of_mem_drop h1)
  have hEparse := parseSeriesEntries_id E hEwf
  have hEparent : parent ∈ E := by
    rw [hE]
    have h2 : parent ∈ lines.take (lines.indexOf parent + 1) ++
        lines.drop (lines.indexOf parent + 1) := by
      rw [List.take_append_drop]
      exact hparent
    rcases List.mem_append.1 h2 with h3 | h3
    · exact List.mem_append.2 (Or.inl (List.mem_append.2 (Or.inl h3)))
    · exact List.mem_append.2 (Or.inr h3)
  have hEmem : ∀ n ∈ names, n ∈ E := by
    intro n hn
    rw [hE]
    exact List.mem_append.2 (Or.inl (List.mem_append.2 (Or.inr hn)))
  obtain ⟨d2, hd2⟩ := addEntriesLoop_all_present env pr.files names (E.indexOf parent + 1) E
    (d1 || !(E == lines)) hfilesOk hEmem
  have hsecond : prAddPatches env (prAddPatches env pr names (some parent)).1 names
      (some parent) =
      ({ pr with fs := fsWrite (fsWrite pr.fs seriesFilePath E) seriesFilePath E,
                 dirty := d2 || !(E == E) }, none) := by
    rw [hfirst]
    dsimp only
    rw [prAddPatches]
    dsimp only
    have hRfs : fsWrite pr.fs seriesFilePath E seriesFilePath = some E := by simp [fsWrite]
    rw [hRfs]
    dsimp only
    rw [hEparse, if_pos hEparent]
    dsimp only
    rw [hd2]
  refine ⟨by rw [hfirst], hfsE, by rw [hsecond], ?_⟩
  rw [hsecond, hfsE]
  show fsWrite (fsWrite pr.fs seriesFilePath E) seriesFilePath E seriesFilePath = some E
  simp [fsWrite]

/-- Witness for the amended C6: inserting a fresh name after `p` in `p, c`
gives `p, n, c`, and a second identical call leaves the series file
unchanged. -/
theorem ply_c6_add_patches_witness :
    prAdd.fs seriesFilePath = some ["p", "c"] ∧
    ("p" ∈ ["p", "c"]) ∧
    (∀ n ∈ ["n"], n ∈ prAdd.files) ∧
    (prAddPatches envAdd prAdd ["n"] (some "p")).2 = none ∧
    (prAddPatches envAdd prAdd ["n"] (some "p")).1.fs seriesFilePath =
      some ["p", "n", "c"] ∧
    (prAddPatches envAdd (prAddPatches envAdd prAdd ["n"] (some "p")).1 ["n"]
        (some "p")).1.fs seriesFilePath =
      (prAddPatches envAdd prAdd ["n"] (some "p")).1.fs seriesFilePath := by
  have h := ply_c6_add_patches envAdd prAdd ["n"] "p" ["p", "c"] (by decide) (by decide)
    (by decide) (by decide) (by decide) (by decide) (by decide)
  refine ⟨by decide, by decide, by decide, h.1, ?_, h.2.2.2⟩
  exact h.2.1.trans (by decide)

/-- C7 counterexample: `sub/x.patch` is present in the flattened series via
an inclusion directive, yet `remove_patch` fails (`ValueError` from
`entries.remove` on the root series file) instead of removing it — the
claim's "for every name present in the series, remove_patch deletes the
file and removes the name" does not hold for names contributed by nested
manifests. -/
theorem ply_c7_counterexample :
    prSeries 2 prN = some ["sub/x.patch"] ∧
    (prRemovePatch prN "sub/x.patch").2 = some PlyError.valueError ∧
    (prRemovePatch prN "sub/x.patch").2 ≠ none := by
  refine ⟨by decide, by decide, by decide⟩

/-- C7 as amended: for every flat series manifest (unique entries, no
inclusion directives), `remove_patch(name)` on a name present in the root
series file (with its blob on disk) succeeds, deletes the blob entry and
removes the name so a subsequent `series` no longer contains it; on a name
absent from the root series file it fails (either `git rm` fails on the
missing blob, or `entries.remove` raises) rather than silently succeeding.
Names present only through a nested manifest cannot be removed this way. -/
theorem ply_c7_remove_patch (pr : PR) (name : String) (lines : List String)
    (hfs : pr.fs seriesFilePath = some lines)
    (hwf : ∀ l ∈ lines, pyStrip l = l ∧ l ≠ "")
    (hflat : ∀ l ∈ lines, strStartsWith (pyStrip l) "-i " = false)
    (hnodup : lines.Nodup) :
    (name ∈ lines → name ∈ pr.files →
      (prRemovePatch pr name).2 = none ∧
      (∀ fuel, prSeries (fuel + 1) (prRemovePatch pr name).1 = some (lines.erase name)) ∧
      name ∉ lines.erase name) ∧
    (name ∉ lines → (prRemovePatch pr name).2 ≠ none) := by
  have hparse := parseSeriesEntries_id lines hwf
  constructor
  · intro hname hfile
    have hrm : prRemovePatch pr name =
        ({ pr with fs := fsWrite pr.fs seriesFilePath (lines.erase name),
                   files := pr.files.erase name,
                   dirty := true }, none) := by
      rw [prRemovePatch, if_pos hfile]
      dsimp only
      rw [hfs]
      dsimp only
      rw [hparse, if_pos hname]
    refine ⟨by rw [hrm], ?_, ?_⟩
    · intro fuel
      rw [hrm]
      have hfs' : (fsWrite pr.fs seriesFilePath (lines.erase name)) seriesFilePath =
          some (lines.erase name) := by simp [fsWrite]
      have hflat' : ∀ l ∈ lines.erase name, strStartsWith (pyStrip l) "-i " = false :=
        fun l hl => hflat l (List.mem_of_mem_erase hl)
      have h := recursiveSeries_flat (fsWrite pr.fs seriesFilePath (lines.erase name)) ""
        fuel seriesFilePath (lines.erase name) hfs' hflat'
      show recursiveSeries (fsWrite pr.fs seriesFilePath (lines.erase name)) "" (fuel + 1)
        seriesFilePath = some (lines.erase name)
      rw [h, mapStrip_id (lines.erase name)
        (fun l hl => (hwf l (List.mem_of_mem_erase hl)).1)]
    · intro hcon
      exact ((List.Nodup.mem_erase_iff hnodup).1 hcon).1 rfl
  · intro hname
    rw [prRemovePatch]
    by_cases hfile : name ∈ pr.files
    · rw [if_pos hfile]
      dsimp only
      rw [hfs]
      dsimp only
      rw [hparse, if_neg hname]
      simp
    · rw [if_neg hfile]
      simp

/-- Witness for the amended C7: removing `a.patch` from the flat series
`a.patch, b.patch` succeeds and the series no longer contains it; removing
an absent name fails. -/
theorem ply_c7_remove_patch_witness :
    ("a.patch" ∈ ["a.patch", "b.patch"]) ∧
    ("a.patch" ∈ prF.files) ∧
    (prRemovePatch prF "a.patch").2 = none ∧
    prSeries 1 (prRemovePatch prF "a.patch").1 = some ["b.patch"] ∧
    ("zz.patch" ∉ ["a.patch", "b.patch"]) ∧
    (prRemovePatch prF "zz.patch").2 ≠ none := by
  have h := ply_c7_remove_patch prF "a.patch" ["a.patch", "b.patch"] (by decide) (by decide)
    (by decide) (by decide)
  have h2 := ply_c7_remove_patch prF "zz.patch" ["a.patch", "b.patch"] (by decide) (by decide)
    (by decide) (by decide)
  have hp := h.1 (by decide) (by decide)
  refine ⟨by decide, by decide, hp.1, ?_, by decide, h2.2 (by decide)⟩
  exact (hp.2.1 0).trans (by decide)

/-- C9: `remove_patch` issues the blob deletion (`git rm`) before it reads
or checks the series manifest, so for a name whose blob exists but which is
not an entry of the series file, the operation fails only after the blob
removal was performed: the error is the `ValueError` from `entries.remove`,
the blob list has changed, and the series file itself was never rewritten
(the write-back after the failing mutation does not run). -/
theorem ply_c9_remove_rm_before_check (pr : PR) (name : String) (lines : List String)
    (hfile : name ∈ pr.files)
    (hfs : pr.fs seriesFilePath = some lines)
    (habs : name ∉ parseSeriesEntries lines) :
    (prRemovePatch pr name).2 = some PlyError.valueError ∧
    (prRemovePatch pr name).1.files = pr.files.erase name ∧
    (prRemovePatch pr name).1.files ≠ pr.files ∧
    (prRemovePatch pr name).1.fs seriesFilePath = some lines := by
  have hrm : prRemovePatch pr name =
      ({ pr with files := pr.files.erase name, dirty := true }, some PlyError.valueError) := by
    rw [prRemovePatch, if_pos hfile]
    dsimp only
    rw [hfs]
    dsimp only
    rw [if_neg habs]
  refine ⟨by rw [hrm], by rw [hrm], ?_, by rw [hrm]; exact hfs⟩
  rw [hrm]
  dsimp only
  intro hcon
  have hlen := congrArg List.length hcon
  rw [List.length_erase_of_mem hfile] at hlen
  have hpos : 0 < pr.files.length := List.length_pos.2 (List.ne_nil_of_mem hfile)
  omega

/-- Witness for C9: the nested-manifest repository; the blob `sub/x.patch`
exists, is absent from the root series entries, and its removal fails with
the blob already deleted. -/
theorem ply_c9_remove_rm_before_check_witness :
    ("sub/x.patch" ∈ prN.files) ∧
    prN.fs seriesFilePath = some ["-i sub/series"] ∧
    ("sub/x.patch" ∉ parseSeriesEntries ["-i sub/series"]) ∧
    (prRemovePatch prN "sub/x.patch").2 = some PlyError.valueError ∧
    (prRemovePatch prN "sub/x.patch").1.files = [] ∧
    (prRemovePatch prN "sub/x.patch").1.files ≠ prN.files := by
  have h := ply_c9_remove_rm_before_check prN "sub/x.patch" ["-i sub/series"] (by decide)
    (by decide) (by decide)
  exact ⟨by decide, by decide, by decide, h.1, by decide, h.2.2.1⟩

/-! ### Helper lemmas on the dependency graph -/

theorem cbfAux_eq (touched : String → List String) :
    ∀ (series : List String) (acc : String → List String) (f : String),
      cbfAux touched acc series f = acc f ++ series.filter (fun p => decide (f ∈ touched p)) := by
  intro series
  induction series with
  | nil => intro acc f; simp [cbfAux]
  | cons p ps ih =>
    intro acc f
    rw [cbfAux, ih]
    by_cases hf : f ∈ touched p
    · simp [hf, List.filter_cons, List.append_assoc]
    · simp [hf, List.filter_cons]

theorem changesByFilename_eq (touched : String → List String) (series : List String)
    (f : String) :
    changesByFilename touched series f = series.filter (fun p => decide (f ∈ touched p)) := by
  rw [changesByFilename, cbfAux_eq]
  simp

theorem addEdge_fold (f : String) :
    ∀ (pairs : List (String × String)) (g : String × String → Finset String)
      (e' : String × String),
      (pairs.foldl (fun g' e => addEdge g' e f) g) e' =
        if e' ∈ pairs then insert f (g e') else g e' := by
  intro pairs
  induction pairs with
  | nil => intro g e'; simp
  | cons q qs ih =>
    intro g e'
    rw [List.foldl_cons, ih]
    by_cases hq : e' = q
    · subst hq
      by_cases hm : e' ∈ qs
      · simp [hm, addEdge, Finset.insert_idem]
      · simp [hm, addEdge]
    · by_cases hm : e' ∈ qs
      · simp [hm, hq, addEdge, List.mem_cons]
      · simp [hm, hq, addEdge, List.mem_cons]

theorem depGraph_fold (touched : String → List String) (series : List String) :
    ∀ (keys : List String) (g0 : String × String → Finset String) (e' : String × String),
      (keys.foldl (fun gAcc f => (consecPairs (changesByFilename touched series f)).foldl
          (fun g' e => addEdge g' e f) gAcc) g0) e' =
        g0 e' ∪ (keys.filter fun f =>
          decide (e' ∈ consecPairs (changesByFilename touched series f))).toFinset := by
  intro keys
  induction keys with
  | nil => intro g0 e'; simp
  | cons f fs ih =>
    intro g0 e'
    rw [List.foldl_cons, ih, addEdge_fold]
    by_cases hf : e' ∈ consecPairs (changesByFilename touched series f)
    · ext a
      simp [List.filter_cons, hf, or_assoc]
    · ext a
      simp [List.filter_cons, hf]

/-- C8: the dependency graph assigns to every directed pair
`(dependent, parent)` exactly the set of files `f` such that the pair is
consecutive, later patch first, in the series-ordered list of patches
touching `f`; that per-file list is exactly the series filtered to the
patches touching `f`; and two patches with disjoint changed-file sets get
no edge (an empty label set). -/
theorem ply_c8_patch_dependencies (touched : String → List String) (series : List String)
    (dep par : String) :
    (∀ f, f ∈ patchDependencies touched series (dep, par) ↔
      (dep, par) ∈ consecPairs (changesByFilename touched series f)) ∧
    (∀ f, changesByFilename touched series f =
      series.filter fun p => decide (f ∈ touched p)) ∧
    ((∀ f, ¬(f ∈ touched dep ∧ f ∈ touched par)) →
      patchDependencies touched series (dep, par) = ∅) := by
  have hmem : ∀ f, f ∈ patchDependencies touched series (dep, par) ↔
      (dep, par) ∈ consecPairs (changesByFilename touched series f) := by
    intro f
    rw [patchDependencies, depGraph_fold]
    simp only [Finset.empty_union, List.mem_toFinset, List.mem_filter, decide_eq_true_iff]
    constructor
    · exact fun h => h.2
    · intro h
      refine ⟨?_, h⟩
      have hpar : par ∈ changesByFilename touched series f := (List.of_mem_zip h).2
      rw [changesByFilename_eq] at hpar
      have hpar' := List.mem_filter.1 hpar
      rw [depKeys]
      exact List.mem_dedup.2 (List.mem_flatMap.2
        ⟨par, hpar'.1, of_decide_eq_true hpar'.2⟩)
  refine ⟨hmem, fun f => changesByFilename_eq touched series f, fun hdisj => ?_⟩
  ext a
  simp only [Finset.not_mem_empty, iff_false]
  intro hcon
  have h := (hmem a).1 hcon
  have hdep : dep ∈ (changesByFilename touched series a).drop 1 := (List.of_mem_zip h).1
  have hdep' : dep ∈ changesByFilename touched series a := List.mem_of_mem_drop hdep
  have hpar : par ∈ changesByFilename touched series a := (List.of_mem_zip h).2
  rw [changesByFilename_eq] at hdep' hpar
  exact hdisj a ⟨of_decide_eq_true (List.mem_filter.1 hdep').2,
    of_decide_eq_true (List.mem_filter.1 hpar).2⟩

/-- Witness for C8: `p1` and `p2` share file `f` and are consecutive, so
the edge `(p2, p1)` is labelled with `f`; `p3` and `p1` touch disjoint
files, so that pair has no edge. -/
theorem ply_c8_patch_dependencies_witness :
    ("f" ∈ patchDependencies tchW ["p1", "p2", "p3"] ("p2", "p1")) ∧
    patchDependencies tchW ["p1", "p2", "p3"] ("p3", "p1") = ∅ := by
  have h := ply_c8_patch_dependencies tchW ["p1", "p2", "p3"] "p2" "p1"
  have h2 := ply_c8_patch_dependencies tchW ["p1", "p2", "p3"] "p3" "p1"
  refine ⟨(h.1 "f").mpr (by decide), h2.2.2 ?_⟩
  intro f hf
  have h3 : f ∈ tchW "p3" := hf.1
  have h4 : f ∈ tchW "p1" := hf.2
  rw [show tchW "p3" = ["h"] from rfl] at h3
  rw [show tchW "p1" = ["f", "g"] from rfl] at h4
  rcases List.mem_singleton.1 h3 ▸ h4 with h5
  rcases List.mem_cons.1 h5 with h6 | h6
  · exact absurd h6 (by decide)
  · exact absurd (List.mem_singleton.1 h6) (by decide)

theorem hasPlyMarker_append_marker (msg name : String) :
    hasPlyMarker (msg ++ "\n\nPly-Patch: " ++ name) = true := by
  rw [hasPlyMarker, decide_eq_true_iff]
  have hdata : (msg ++ "\n\nPly-Patch: " ++ name).data =
      msg.data ++ "\n\nPly-Patch: ".data ++ name.data := by
    rw [String.data_append, String.data_append]
  rw [hdata]
  have hsplit : "\n\nPly-Patch: ".data =
      ['\n', '\n'] ++ "Ply-Patch".data ++ [':', ' '] := by decide
  rw [hsplit]
  exact ⟨msg.data ++ ['\n', '\n'], [':', ' '] ++ name.data, by simp⟩

/-- C10: `_add_patch_annotation` amends the HEAD commit only when the
literal substring `Ply-Patch` does not occur anywhere in its message; when
it amends, the new message is the old one with the single trailing
annotation appended, and annotating an already-annotated message (including
one that merely mentions the string `Ply-Patch` in free text) is a no-op,
so every commit carries at most one annotation. -/
theorem ply_c10_annotation_guard :
    (∀ msg name, hasPlyMarker msg = true → addPatchAnnot msg name = none) ∧
    (∀ msg name, hasPlyMarker msg = false →
      addPatchAnnot msg name = some (msg ++ "\n\nPly-Patch: " ++ name)) ∧
    (∀ msg name name',
      addPatchAnnot (msg ++ "\n\nPly-Patch: " ++ name) name' = none) := by
  refine ⟨?_, ?_, ?_⟩
  · intro msg name h
    rw [addPatchAnnot, if_pos h]
  · intro msg name h
    rw [addPatchAnnot, if_neg (by rw [h]; exact Bool.false_ne_true)]
  · intro msg name name'
    rw [addPatchAnnot, if_pos (hasPlyMarker_append_marker msg name)]

/-- Witness for C10: a free-form message mentioning `Ply-Patch` is never
amended; an unannotated message is amended exactly once. -/
theorem ply_c10_annotation_guard_witness :
    hasPlyMarker "see the Ply-Patch docs" = true ∧
    addPatchAnnot "see the Ply-Patch docs" "x.patch" = none ∧
    hasPlyMarker "base msg" = false ∧
    addPatchAnnot "base msg" "x.patch" =
      some ("base msg" ++ "\n\nPly-Patch: " ++ "x.patch") ∧
    addPatchAnnot ("base msg" ++ "\n\nPly-Patch: " ++ "x.patch") "y.patch" = none := by
  have h := ply_c10_annotation_guard
  exact ⟨by decide, h.1 "see the Ply-Patch docs" "x.patch" (by decide), by decide,
    h.2.1 "base msg" "x.patch" (by decide), h.2.2 "base msg" "x.patch" "y.patch"⟩

theorem hasPlyMarker_annotateMsg (m q : String) :
    hasPlyMarker (annotateMsg m q) = true := by
  rw [annotateMsg]
  by_cases h : hasPlyMarker m
  · rw [addPatchAnnot, if_pos h]
    exact h
  · rw [addPatchAnnot, if_neg h]
    exact hasPlyMarker_append_marker m q

theorem annotateMsg_annotateMsg (m a b : String) :
    annotateMsg (annotateMsg m a) b = annotateMsg m a := by
  have h := hasPlyMarker_annotateMsg m a
  rw [annotateMsg, addPatchAnnot, if_pos h]

theorem annotateCommits_cons (m : String) (ms : List String) (name : String) :
    annotateCommits (m :: ms) name = annotateMsg m name :: ms := rfl

theorem headAdjusted_annotate (tail orig : List String) (q : String)
    (h : headAdjusted tail (annotateCommits orig q)) : headAdjusted tail orig := by
  cases orig with
  | nil => exact h
  | cons m ms =>
    rw [annotateCommits_cons] at h
    rcases h with h1 | ⟨m', ms', name, hkeq, htail⟩
    · exact Or.inr ⟨m, ms, q, rfl, h1⟩
    · injection hkeq with e1 e2
      subst e1
      subst e2
      rw [annotateMsg_annotateMsg] at htail
      exact Or.inr ⟨m, ms, q, rfl, htail⟩

theorem prRemovePatch_not_conflict (pr : PR) (name p : String) :
    (prRemovePatch pr name).2 ≠ some (PlyError.patchDidNotApplyCleanly p) := by
  rw [prRemovePatch]
  by_cases h : name ∈ pr.files
  · rw [if_pos h]
    dsimp only
    cases pr.fs seriesFilePath with
    | none => simp
    | some lines =>
      by_cases hm : name ∈ parseSeriesEntries lines
      · simp [hm]
      · simp [hm]
  · rw [if_neg h]
    simp

theorem restoreLoop_conflict_char (env : Env) (applied : List String) :
    ∀ (ps : List String) (st stF : SyncState) (p : String),
      restoreLoop env applied st ps = (stF, some (PlyError.patchDidNotApplyCleanly p)) →
      stF.wr.conflictFile = some p ∧
      p ∉ applied ∧
      env.amResult p = ApplyOutcome.didNotApplyCleanly ∧
      stF.pr.commitCount = st.pr.commitCount ∧
      ∃ (cleanRun tail : List String),
        stF.wr.commits = (cleanRun.map fun q => annotateMsg (env.amMsg q) q).reverse ++ tail ∧
        (∀ q ∈ cleanRun, q ∉ applied ∧ env.amResult q = ApplyOutcome.clean) ∧
        headAdjusted tail st.wr.commits := by
  intro ps
  induction ps with
  | nil =>
    intro st stF p h
    rw [restoreLoop] at h
    injection h with h1 h2
    exact Option.noConfusion h2
  | cons q rest ih =>
    intro st stF p h
    rw [restoreLoop] at h
    by_cases hq : q ∈ applied
    · rw [if_pos hq] at h
      exact ih st stF p h
    · rw [if_neg hq] at h
      split at h
      · rename_i ham
        obtain ⟨hcf, hpa, hres, hcc, cleanRun, tail, hcom, hrun, hadj⟩ := ih _ stF p h
        have hcoms : (annotateHead { st with
            wr := { st.wr with commits := env.amMsg q :: st.wr.commits } } q).wr.commits =
            annotateMsg (env.amMsg q) q :: st.wr.commits := rfl
        rw [hcoms] at hadj
        have htail : tail = annotateMsg (env.amMsg q) q :: st.wr.commits := by
          rcases hadj with h1 | ⟨m, ms, name, hkeq, h2⟩
          · exact h1
          · injection hkeq with e1 e2
            subst e1
            subst e2
            rw [annotateMsg_annotateMsg] at h2
            exact h2
        refine ⟨hcf, hpa, hres, hcc, q :: cleanRun, st.wr.commits, ?_, ?_, Or.inl rfl⟩
        · rw [hcom, htail]
          simp [List.append_assoc]
        · intro r hr
          rcases List.mem_cons.1 hr with h1 | h1
          · subst h1
            exact ⟨hq, ham⟩
          · exact hrun r h1
      · rename_i ham
        injection h with h1 h2
        injection h2 with h3
        injection h3 with h4
        subst h4
        subst h1
        exact ⟨rfl, hq, ham, rfl, [], st.wr.commits, by simp, by simp, Or.inl rfl⟩
      · rename_i ham
        split at h
        · rename_i pr1 e heq2
          exfalso
          injection h with h1 h2
          injection h2 with h3
          have hnc := prRemovePatch_not_conflict st.pr q p
          rw [heq2] at hnc
          exact hnc (by rw [h3])
        · rename_i pr1 heq2
          obtain ⟨hcf, hpa, hres, hcc, cleanRun, tail, hcom, hrun, hadj⟩ := ih _ stF p h
          have hcoms : (annotateHead { st with pr := pr1 } q).wr.commits =
              annotateCommits st.wr.commits q := rfl
          rw [hcoms] at hadj
          have hc1 : pr1.commitCount = st.pr.commitCount := by
            have hh := prRemovePatch_commitCount st.pr q
            rw [heq2] at hh
            exact hh
          exact ⟨hcf, hpa, hres, hcc.trans hc1, cleanRun, tail, hcom, hrun,
            headAdjusted_annotate tail st.wr.commits q hadj⟩

/-- C1: for every restore invocation in which applying some patch raises
`PatchDidNotApplyCleanly` — with no constraint on the outcomes of the
earlier patches of the series, which may have been skipped, applied cleanly
or removed as already applied — `restore` persists the conflict marker
holding exactly that patch's name and re-raises that same failure to its
caller without committing to the patch repository.  The final working
history consists of one annotated commit per patch applied cleanly earlier
in this invocation, in application order, on top of the original history;
the original commits are never rolled back (at most the original head was
amended with an annotation by an already-applied removal). -/
theorem ply_c1_restore_conflict (env : Env) (fuel : Nat) (st : SyncState)
    (series : List String) (stF : SyncState) (p : String)
    (hdirty : st.wr.dirty = false)
    (hser : prSeries fuel st.pr = some series)
    (hloop : restoreLoop env (appliedPatches st.wr.commits) st series =
      (stF, some (PlyError.patchDidNotApplyCleanly p))) :
    restore env fuel st = (stF, some (PlyError.patchDidNotApplyCleanly p)) ∧
    stF.wr.conflictFile = some p ∧
    p ∉ appliedPatches st.wr.commits ∧
    env.amResult p = ApplyOutcome.didNotApplyCleanly ∧
    stF.pr.commitCount = st.pr.commitCount ∧
    ∃ (cleanRun tail : List String),
      stF.wr.commits = (cleanRun.map fun q => annotateMsg (env.amMsg q) q).reverse ++ tail ∧
      (∀ q ∈ cleanRun, q ∉ appliedPatches st.wr.commits ∧
        env.amResult q = ApplyOutcome.clean) ∧
      headAdjusted tail st.wr.commits := by
  obtain ⟨hcf, hpa, hres, hcc, hdec⟩ :=
    restoreLoop_conflict_char env (appliedPatches st.wr.commits) series st stF p hloop
  refine ⟨?_, hcf, hpa, hres, hcc, hdec⟩
  rw [restore, if_neg (by rw [hdirty]; exact Bool.false_ne_true), hser]
  dsimp only
  rw [hloop]

/-- Witness for C1: first patch already upstream (removed, HEAD amended),
second applies cleanly, third conflicts; the marker names the third patch,
the failure propagates, and the clean commit stays on the amended base. -/
theorem ply_c1_restore_conflict_witness :
    stC1b.wr.dirty = false ∧
    prSeries 1 stC1b.pr = some ["p0", "p1", "p2"] ∧
    restore envC1b 1 stC1b =
      (⟨⟨["am p1\n\nPly-Patch: p1", "base\n\nPly-Patch: p0"], some "p2", false⟩,
        ⟨fsWrite stC1b.pr.fs seriesFilePath ["p1", "p2"], ["p1", "p2"], true, 0⟩⟩,
       some (PlyError.patchDidNotApplyCleanly "p2")) ∧
    (restore envC1b 1 stC1b).1.wr.conflictFile = some "p2" ∧
    (restore envC1b 1 stC1b).1.pr.commitCount = stC1b.pr.commitCount := by
  have hloop : restoreLoop envC1b (appliedPatches stC1b.wr.commits) stC1b ["p0", "p1", "p2"] =
      (⟨⟨["am p1\n\nPly-Patch: p1", "base\n\nPly-Patch: p0"], some "p2", false⟩,
        ⟨fsWrite stC1b.pr.fs seriesFilePath ["p1", "p2"], ["p1", "p2"], true, 0⟩⟩,
       some (PlyError.patchDidNotApplyCleanly "p2")) := rfl
  have h := ply_c1_restore_conflict envC1b 1 stC1b ["p0", "p1", "p2"] _ "p2" rfl
    (by decide) hloop
  exact ⟨rfl, by decide, h.1, by rw [h.1], by rw [h.1]; rfl⟩
